import Mathlib

/-!
Verification development for the metadata-reference aggregation and
deduplicating-write engine of dpres-siptools (`siptools/mdcreator.py`).

The reference index is modelled shallowly: the on-disk line-delimited JSON
file becomes a `List (String × Entry)` (each line is a single-key JSON
object), a missing file is `none : Option (List (String × Entry))`, and
Python dictionaries become association lists whose keys are unique by
construction (Python dicts cannot hold duplicate keys); stream indices,
which JSON serialization round-trips faithfully (`Nat` keys and their
decimal-string images are in bijection), are kept as `Nat` throughout.
-/

/-- One value of the reference index: the JSON object stored against a path
key, with `path_type`, the top-level `md_ids` list and the per-stream id
lists (`streams`), mirroring `_setup_new_path` in `mdcreator.py`. -/
structure Entry where
  path_type : String
  md_ids : List String
  streams : List (Nat × List String)
deriving DecidableEq

/-- An in-memory reference as built by `MetsSectionCreator.add_reference`:
the dict with keys `md_id`, `stream`, `path`, `path_type`. -/
structure Reference where
  md_id : String
  stream : Option Nat
  path : String
  path_type : String
deriving DecidableEq

/-- A single line of the reference-index file: a one-key JSON object. -/
abbrev Line := String × Entry

/-- First-match association-list lookup; models Python dict indexing
(`d[k]`) and the first-hit scan of the JSON-lines file. For the unique-key
lists produced by the code the first match is the only match. -/
def assocGet {α β : Type} [DecidableEq α] : List (α × β) → α → Option β
  | [], _ => none
  | p :: rest, k => if p.1 = k then some p.2 else assocGet rest k

/-- Association-list store; models Python dict assignment `d[k] = v`:
replace the value in place when the key exists, append otherwise. -/
def assocSet {α β : Type} [DecidableEq α] : List (α × β) → α → β → List (α × β)
  | [], k, v => [(k, v)]
  | p :: rest, k, v => if p.1 = k then (k, v) :: rest else p :: assocSet rest k v

/-- Models `_parse_refs` of `mdcreator.py`. The Python helper decodes
`bytes` with the filesystem encoding and stringifies other truthy values;
on the `str` values of this model it is the identity. -/
def _parse_refs (ref : String) : String := ref

/-- Models `_uniques_list` of `mdcreator.py`: Python builds
`set(reference_list) | {reference}` and returns it as a list in
unspecified order; the model fixes a deterministic order (`dedup` keeps
one occurrence of each element), faithful up to set contents and
duplicate-freeness, which is all the callers rely on. -/
def _uniques_list (reference_list : List String) (reference : String) : List String :=
  (reference_list ++ [reference]).dedup

/-- Models `MetsSectionCreator.add_reference`: build the reference dict;
a truthy (non-empty) `directory` overrides the path and marks the
path type as directory. -/
def add_reference (md_id : String) (filepath : String) (stream : Option Nat)
    (directory : Option String) : Reference :=
  let base : Reference := ⟨md_id, stream, filepath, "file"⟩
  match directory with
  | some d => if d ≠ "" then { base with path := d, path_type := "directory" } else base
  | none => base

/-- Models `_setup_new_path` of `write_references`. -/
def _setup_new_path (path_type : String) : Entry :=
  ⟨path_type, [], []⟩

/-- Models the body of the `for ref in self.references` loop of
`write_references` for one reference, given the entry for its path:
`if ref['stream']:` is Python truthiness, false for both `None` and
stream index `0`; the stream branch stores into `path['streams']`, the
other branch into `md_ids`. -/
def applyRef (e : Entry) (r : Reference) : Entry :=
  match r.stream with
  | some s =>
    if s ≠ 0 then
      { e with streams :=
          match assocGet e.streams s with
          | some ids => assocSet e.streams s (_uniques_list ids r.md_id)
          | none => assocSet e.streams s [r.md_id] }
    else { e with md_ids := _uniques_list e.md_ids r.md_id }
  | none => { e with md_ids := _uniques_list e.md_ids r.md_id }

/-- State of the loop of `write_references`: the `paths` list (modelled as
an association list; the code keeps a parallel `path_map` from key to
index, so keys are unique) and the `paths_updated` set. -/
structure WrState where
  paths : List Line
  updated : List String
deriving DecidableEq

/-- One iteration of the loop of `write_references`: look the parsed path
up among this batch's paths; on a miss consult the existing file
(`_get_path_from_reference_file`, a first-hit line scan) when it exists,
record the path as updated when found there, and otherwise start a fresh
entry; then fold the reference into the entry. -/
def wrStep (fileExists : Bool) (lines : List Line) (st : WrState) (r : Reference) : WrState :=
  let rp := _parse_refs r.path
  match assocGet st.paths rp with
  | some e => { st with paths := assocSet st.paths rp (applyRef e r) }
  | none =>
    let fromFile := if fileExists then assocGet lines rp else none
    let upd := match fromFile with
      | some _ => if rp ∈ st.updated then st.updated else st.updated ++ [rp]
      | none => st.updated
    let e0 := fromFile.getD (_setup_new_path r.path_type)
    { paths := st.paths ++ [(rp, applyRef e0 r)], updated := upd }

/-- Models `MetsSectionCreator.write_references`: fold the batch through
`wrStep`, then either rewrite the file through the temporary file (when
`paths_updated` is non-empty: copy through every line whose key was not
updated, append one line per batch path, rename) or append the batch
paths directly (creating the file only when at least one path is
written). The boolean records whether the temporary file was used. -/
def write_references (refs : List Reference) (file : Option (List Line)) :
    Option (List Line) × Bool :=
  let fileExists := file.isSome
  let lines := file.getD []
  let st := refs.foldl (wrStep fileExists lines) ⟨[], []⟩
  if st.updated.isEmpty then
    (if st.paths.isEmpty then file else some (lines ++ st.paths), false)
  else
    (some (lines.filter (fun l => !(st.updated.contains l.1)) ++ st.paths), true)

/-- Models `read_md_references`: `none` when the file does not exist,
otherwise fold `dict.update` over the parsed lines (`assocSet` replaces
the value when a later line repeats a key). -/
def read_md_references (file : Option (List Line)) : Option (List Line) :=
  match file with
  | none => none
  | some lines => some (lines.foldl (fun acc l => assocSet acc l.1 l.2) [])

/-- Models `os.path.normpath` splitting on the separator: CPython splits
the path on every single slash character, producing empty components. -/
def splitSlashAux : List Char → List Char → List String
  | [], cur => [String.mk cur.reverse]
  | c :: rest, cur =>
    if c = '/' then String.mk cur.reverse :: splitSlashAux rest []
    else splitSlashAux rest (c :: cur)

/-- Split a path string on the slash separator. -/
def splitSlash (s : String) : List String := splitSlashAux s.data []

/-- Models the leading-slash count of CPython `posixpath.normpath`:
exactly two leading slashes are preserved, one or three-plus collapse to
one. -/
def initialSlashes : List Char → Nat
  | '/' :: '/' :: '/' :: _ => 1
  | '/' :: '/' :: _ => 2
  | '/' :: _ => 1
  | _ => 0

/-- Models CPython `posixpath.normpath` (called by `get_md_references` on
directory filters): drop empty and dot components, resolve dot-dot
against the accumulated components, re-join. -/
def normpath (p : String) : String :=
  if p = "" then "." else
  let isl := initialSlashes p.data
  let comps := splitSlash p
  let newComps := comps.foldl (fun acc comp =>
    if comp = "" ∨ comp = "." then acc
    else if comp ≠ ".." ∨ (isl = 0 ∧ acc = []) ∨ acc.getLast? = some ".." then acc ++ [comp]
    else if acc ≠ [] then acc.dropLast
    else acc) []
  let joined := String.mk (List.replicate isl '/') ++ String.intercalate "/" newComps
  if joined = "" then "." else joined

/-- Models `get_md_references`, including the surrounding
`try ... except KeyError` that turns every lookup miss into the empty
result. The Python branch chain is kept: the no-filter branch concatenates
`md_ids` over the whole mapping with no path-type filter; `elif directory:`
is truthiness (`none` and the empty string fall through); the directory
key is normalized with `normpath`; the stream branch keeps the last
matching stream key, as the Python loop does. -/
def get_md_references (refs_dict : Option (List Line)) (path : Option String)
    (stream : Option Nat) (directory : Option String) : Option (Finset String) :=
  match refs_dict with
  | none => none
  | some rd => some (
      if directory.isNone ∧ path.isNone ∧ stream.isNone then
        (rd.foldl (fun acc p => acc ++ p.2.md_ids) []).toFinset
      else if (directory.getD "") ≠ "" then
        (((assocGet rd (normpath (directory.getD ""))).map Entry.md_ids).getD []).toFinset
      else if stream.isNone then
        (((path.bind (fun p => assocGet rd p)).map Entry.md_ids).getD []).toFinset
      else
        (((path.bind (fun p => assocGet rd p)).map
          (fun e => e.streams.foldl
            (fun (acc : List String) (kv : Nat × List String) =>
              if kv.1 = stream.getD 0 then kv.2 else acc) [])).getD []).toFinset)

mutual

/-- The metadata XML element handed to `write_md`: a tag, an attribute
list, text content and child elements, the logical content the digest of
`siptools.utils.generate_digest` is a function of. -/
inductive Element where
  | mk (tag : String) (attrs : List (String × String)) (text : String) (children : ElementList)
deriving DecidableEq

/-- Children of an `Element` (mutually defined to keep structural
recursion available). -/
inductive ElementList where
  | nil
  | cons (head : Element) (tail : ElementList)
deriving DecidableEq

end

/-- Total order on character lists (by code point, then lexicographically),
used to sort attribute lists into canonical order. -/
def charsLe : List Char → List Char → Bool
  | [], _ => true
  | _ :: _, [] => false
  | a :: as, b :: bs =>
    if a.toNat < b.toNat then true
    else if b.toNat < a.toNat then false
    else charsLe as bs

/-- Lexicographic order on attribute (name, value) pairs. -/
def attrLe (p q : String × String) : Prop :=
  (if p.1.data = q.1.data then charsLe p.2.data q.2.data
   else charsLe p.1.data q.1.data) = true

instance : DecidableRel attrLe := fun p q => by unfold attrLe; infer_instance

/-- Sort an attribute list into canonical order. -/
def sortAttrs (attrs : List (String × String)) : List (String × String) :=
  List.insertionSort attrLe attrs

mutual

/-- Canonical form of a metadata element: every attribute list sorted,
recursively; two elements have the same canonical form exactly when they
are structurally equal up to attribute ordering. -/
def canonEl : Element → Element
  | .mk t a x c => .mk t (sortAttrs a) x (canonList c)

/-- Canonical form of a child list. -/
def canonList : ElementList → ElementList
  | .nil => .nil
  | .cons e es => .cons (canonEl e) (canonList es)

end

/-- Unary, prefix-decodable encoding of a natural number. -/
def encNat (n : Nat) : List Char := List.replicate n '1' ++ ['0']

/-- Length-prefixed, prefix-decodable encoding of a string. -/
def encStr (s : String) : List Char := encNat s.data.length ++ s.data

/-- Prefix-decodable encoding of an attribute list. -/
def encAttrs : List (String × String) → List Char
  | [] => ['0']
  | p :: rest => '1' :: (encStr p.1 ++ (encStr p.2 ++ encAttrs rest))

mutual

/-- Injective serialization of a metadata element (tag, attributes, text,
children, each in a prefix-decodable frame). -/
def serE : Element → List Char
  | .mk t a x c => encStr t ++ (encAttrs a ++ (encStr x ++ serL c))

/-- Injective serialization of a child list. -/
def serL : ElementList → List Char
  | .nil => ['0']
  | .cons e es => '1' :: (serE e ++ serL es)

end

/-- Modelled from the spec: `siptools.utils.generate_digest` (the module
`siptools/utils.py` is not under src/; only its callers and tests are).
Per spec section 4.1 the digest is a cryptographic hash over a canonical
serialization of the element, order-independent in the attributes;
hash collisions are out of scope (distinct content gives distinct digests
with overwhelming probability), so the hash is modelled as the identity
on an injective canonical serialization. -/
def generate_digest (metadata : Element) : String :=
  String.mk (serE (canonEl metadata))

mutual

/-- Structural equality of elements up to attribute ordering: same tags,
same text, attribute lists equal as multisets (permutations of each
other), children pointwise structurally equal. -/
def StructEq : Element → Element → Prop
  | .mk t₁ a₁ x₁ c₁, .mk t₂ a₂ x₂ c₂ => t₁ = t₂ ∧ a₁.Perm a₂ ∧ x₁ = x₂ ∧ StructEqList c₁ c₂

/-- Pointwise structural equality of child lists. -/
def StructEqList : ElementList → ElementList → Prop
  | .nil, .nil => True
  | .cons e es, .cons f fs => StructEq e f ∧ StructEqList es fs
  | _, _ => False

end

/-- Modelled from the spec: `siptools.utils.encode_path`
(`siptools/utils.py` is not under src/). Per spec section 6 the file name
has path-unsafe characters percent-encoded; the slash, the one path
separator that can occur in the names built here, becomes `%2F` as in the
repository's tests. -/
def encode_path (s : String) : String :=
  String.mk (s.data.foldr (fun c acc => if c = '/' then '%' :: '2' :: 'F' :: acc else c :: acc) [])

/-- Models the two-argument POSIX `os.path.join` used by `write_md` and
`write_references`. -/
def path_join (a b : String) : String :=
  if b.data.head? = some '/' then b
  else if a = "" then b
  else if a.data.getLast? = some '/' then a ++ b
  else a ++ "/" ++ b

/-- Suffix of the metadata file name: the source's
`othermdtype if othermdtype else mdtype` (Python truthiness — an empty
`othermdtype` also falls back to `mdtype`). -/
def md_suffix (mdtype : String) (othermdtype : Option String) : String :=
  match othermdtype with
  | some o => if o ≠ "" then o else mdtype
  | none => mdtype

/-- The metadata file path derived by `write_md`: the workspace-joined,
percent-encoded `"<digest>-<suffix>-amd.xml"`. -/
def md_filename (workspace digest suffix : String) : String :=
  path_join workspace (encode_path (digest ++ "-" ++ suffix ++ "-amd.xml"))

/-- Models `MetsSectionCreator.write_md`. The filesystem is the list of
file names present in the workspace; the METS envelope construction and
serialization (`mets.*`, `xml_helpers`) only determine the bytes written,
which no claim reads back, so the model records just the file's creation.
`mdtypeversion` and `sect` (the source's `section` parameter, renamed
because `section` is a Lean keyword) only influence those written bytes.
Returns `((md_id, filename), fs, wrote)` where `wrote` records whether a
new file was written (the body is guarded by
`if not os.path.exists(filename)`). -/
def write_md (workspace : String) (fs : List String) (metadata : Element)
    (mdtype : String) (mdtypeversion : String) (othermdtype : Option String)
    (sect : Option String) : (String × String) × List String × Bool :=
  let _ := mdtypeversion
  let _ := sect
  let digest := generate_digest metadata
  let filename := md_filename workspace digest (md_suffix mdtype othermdtype)
  let md_id := "_" ++ digest
  if filename ∈ fs then ((md_id, filename), fs, false)
  else ((md_id, filename), fs ++ [filename], true)

/-- Well-formedness of one index entry: no duplicate metadata IDs at top
level nor in any per-stream list (spec section 3's invariant). -/
def EntryWF (e : Entry) : Prop :=
  e.md_ids.Nodup ∧ ∀ kv ∈ e.streams, (kv.2 : List String).Nodup

/-- The batch's parsed path keys, in order of the references. -/
def batchKeys (refs : List Reference) : List String :=
  refs.map (fun r => _parse_refs r.path)

/-- At least one line of the existing index file has its key referenced in
this batch (the condition the claim C2 phrases as "an on-disk entry's path
is referenced in this batch"). -/
def diskTouched (refs : List Reference) (lines : List Line) : Prop :=
  ∃ l ∈ lines, l.1 ∈ batchKeys refs

instance (refs : List Reference) (lines : List Line) : Decidable (diskTouched refs lines) := by
  unfold diskTouched
  infer_instance

/-- Stated from the claim C7 for comparison: the union of `md_ids`
restricted to entries whose `path_type` is `file` — what the claim says
the unfiltered `get_md_references` returns. -/
def fileOnlyUnion (rd : List Line) : Finset String :=
  (rd.foldl (fun acc p => if p.2.path_type = "file" then acc ++ p.2.md_ids else acc) []).toFinset

/-- References for one batch that map the given IDs to a single path with
no stream, as `add_reference(id, path)` does. -/
def mkRefsNoStream (p : String) (ids : List String) : List Reference :=
  ids.map (fun a => add_reference a p none none)

/-- Flush a sequence of batches of IDs for one path through
`write_references`, starting from a missing index file: the multi-process
accumulation scenario of claim C5. -/
def multiFlush (p : String) (batches : List (List String)) : Option (List Line) :=
  batches.foldl (fun f ids => (write_references (mkRefsNoStream p ids) f).1) none


/-- Loop invariant of `write_references` (with respect to the file-exists
flag and the file's lines): batch path keys are unique, every updated key
is a batch path key, and a batch path key is marked updated exactly when
the file exists and holds a line for it. -/
def WrInv (fe : Bool) (lines : List Line) (st : WrState) : Prop :=
  (st.paths.map Prod.fst).Nodup ∧
  (∀ k ∈ st.updated, k ∈ st.paths.map Prod.fst) ∧
  (∀ k ∈ st.paths.map Prod.fst, (k ∈ st.updated ↔ (fe = true ∧ assocGet lines k ≠ none)))

/-- Invariant of the claim-C5 scenario: after flushing some batches of
no-stream references for the single path `p`, the index file is either
still missing (no reference flushed yet) or holds exactly one line for
`p` whose `md_ids` are duplicate-free and equal, as a set, to all the IDs
flushed so far. -/
def FInv (p : String) (f : Option (List Line)) (acc : List String) : Prop :=
  (f = none ∧ acc = []) ∨
  ∃ E, f = some [(p, E)] ∧ E.md_ids.Nodup ∧ E.md_ids.toFinset = acc.toFinset ∧
    E.streams = [] ∧ E.path_type = "file"

theorem assocGet_eq_none_iff {α β : Type} [DecidableEq α] (l : List (α × β)) (k : α) :
    assocGet l k = none ↔ k ∉ l.map Prod.fst := by
  induction l with
  | nil => simp [assocGet]
  | cons p rest ih =>
    by_cases h : p.1 = k
    · subst h
      simp [assocGet]
    · have hne : ¬ k = p.1 := fun hk => h hk.symm
      simp [assocGet, h, ih, hne]

theorem assocGet_ne_none_of_mem {α β : Type} [DecidableEq α] {l : List (α × β)} {p : α × β}
    (h : p ∈ l) : assocGet l p.1 ≠ none := by
  intro hn
  rw [assocGet_eq_none_iff] at hn
  exact hn (List.mem_map_of_mem Prod.fst h)

theorem assocGet_mem {α β : Type} [DecidableEq α] {l : List (α × β)} {k : α} {v : β}
    (h : assocGet l k = some v) : (k, v) ∈ l := by
  induction l with
  | nil => simp [assocGet] at h
  | cons p rest ih =>
    by_cases hp : p.1 = k
    · simp [assocGet, hp] at h
      subst hp h
      exact List.mem_cons_self _ _
    · simp [assocGet, hp] at h
      exact List.mem_cons_of_mem _ (ih h)

theorem assocGet_append_of_none {α β : Type} [DecidableEq α] {l₁ : List (α × β)}
    (l₂ : List (α × β)) {k : α} (h : assocGet l₁ k = none) :
    assocGet (l₁ ++ l₂) k = assocGet l₂ k := by
  induction l₁ with
  | nil => simp
  | cons p rest ih =>
    by_cases hp : p.1 = k <;> simp [assocGet, hp] at h ⊢
    exact ih h

theorem assocGet_append_of_some {α β : Type} [DecidableEq α] {l₁ : List (α × β)}
    (l₂ : List (α × β)) {k : α} {v : β} (h : assocGet l₁ k = some v) :
    assocGet (l₁ ++ l₂) k = some v := by
  induction l₁ with
  | nil => simp [assocGet] at h
  | cons p rest ih =>
    by_cases hp : p.1 = k <;> simp [assocGet, hp] at h ⊢ <;> simp_all

theorem assocGet_assocSet {α β : Type} [DecidableEq α] (l : List (α × β)) (k k' : α) (v : β) :
    assocGet (assocSet l k v) k' = if k = k' then some v else assocGet l k' := by
  induction l with
  | nil => by_cases h : k = k' <;> simp [assocSet, assocGet, h]
  | cons p rest ih =>
    by_cases hp : p.1 = k
    · subst hp
      by_cases h : p.1 = k' <;> simp [assocSet, assocGet, h]
    · by_cases hq : p.1 = k'
      · have hkk : ¬ k = k' := fun hk => hp (by rw [hq, hk])
        have hkk2 : ¬ k' = k := fun hk => hkk hk.symm
        simp [assocSet, assocGet, hp, hq, hkk, hkk2]
      · simp [assocSet, assocGet, hp, hq, ih]

theorem assocSet_keys_of_mem {α β : Type} [DecidableEq α] {l : List (α × β)} {k : α} (v : β)
    (h : k ∈ l.map Prod.fst) : (assocSet l k v).map Prod.fst = l.map Prod.fst := by
  induction l with
  | nil => simp at h
  | cons p rest ih =>
    by_cases hp : p.1 = k
    · simp [assocSet, hp]
    · simp only [List.map_cons, List.mem_cons] at h
      rcases h with h | h
      · exact absurd h.symm hp
      · simp [assocSet, hp, ih h]

theorem mem_assocSet {α β : Type} [DecidableEq α] {l : List (α × β)} {k : α} {v : β}
    {p : α × β} (h : p ∈ assocSet l k v) : p = (k, v) ∨ p ∈ l := by
  induction l with
  | nil => simp [assocSet] at h; simp [h]
  | cons q rest ih =>
    by_cases hq : q.1 = k <;> simp [assocSet, hq] at h
    · rcases h with h | h
      · exact Or.inl h
      · exact Or.inr (List.mem_cons_of_mem _ h)
    · rcases h with h | h
      · exact Or.inr (by simp [h])
      · rcases ih h with h' | h'
        · exact Or.inl h'
        · exact Or.inr (List.mem_cons_of_mem _ h')

theorem uniques_list_nodup (l : List String) (r : String) : (_uniques_list l r).Nodup :=
  List.nodup_dedup _

theorem mem_uniques_list (a : String) (l : List String) (r : String) :
    a ∈ _uniques_list l r ↔ a ∈ l ∨ a = r := by
  simp [_uniques_list]

theorem uniques_list_toFinset (l : List String) (r : String) :
    (_uniques_list l r).toFinset = l.toFinset ∪ {r} := by
  apply Finset.ext
  intro a
  simp [_uniques_list, List.mem_dedup, or_comm]

theorem read_fold_lookup (lines : List Line) (acc : List Line) (k : String) :
    assocGet (lines.foldl (fun a l => assocSet a l.1 l.2) acc) k =
      match assocGet lines.reverse k with
      | some v => some v
      | none => assocGet acc k := by
  induction lines generalizing acc with
  | nil => simp [assocGet]
  | cons l rest ih =>
    simp only [List.foldl_cons, List.reverse_cons]
    rw [ih]
    by_cases hrest : assocGet rest.reverse k = none
    · rw [assocGet_append_of_none _ hrest]
      simp only [hrest]
      rw [assocGet_assocSet]
      by_cases hl : l.1 = k <;> simp [assocGet, hl]
    · obtain ⟨v, hv⟩ := Option.ne_none_iff_exists'.mp hrest
      rw [assocGet_append_of_some _ hv]
      simp [hv]

theorem wrStep_hit (fe : Bool) (lines : List Line) (st : WrState) (r : Reference) {e : Entry}
    (hget : assocGet st.paths (_parse_refs r.path) = some e) :
    wrStep fe lines st r =
      { st with paths := assocSet st.paths (_parse_refs r.path) (applyRef e r) } := by
  simp only [wrStep, hget]

theorem wrStep_miss_found (fe : Bool) (lines : List Line) (st : WrState) (r : Reference)
    (e0 : Entry) (hget : assocGet st.paths (_parse_refs r.path) = none)
    (hff : (if fe then assocGet lines (_parse_refs r.path) else none) = some e0)
    (hupd : _parse_refs r.path ∉ st.updated) :
    wrStep fe lines st r =
      ⟨st.paths ++ [(_parse_refs r.path, applyRef e0 r)],
        st.updated ++ [_parse_refs r.path]⟩ := by
  simp only [wrStep, hget, hff]
  simp [hupd]

theorem wrStep_miss_new (fe : Bool) (lines : List Line) (st : WrState) (r : Reference)
    (hget : assocGet st.paths (_parse_refs r.path) = none)
    (hff : (if fe then assocGet lines (_parse_refs r.path) else none) = none) :
    wrStep fe lines st r =
      ⟨st.paths ++ [(_parse_refs r.path, applyRef (_setup_new_path r.path_type) r)],
        st.updated⟩ := by
  simp only [wrStep, hget, hff]
  simp

theorem fileLookup_some_elim {fe : Bool} {lines : List Line} {rp : String} {e0 : Entry}
    (hff : (if fe then assocGet lines rp else none) = some e0) :
    fe = true ∧ assocGet lines rp ≠ none := by
  cases fe with
  | false => simp at hff
  | true => simp at hff; simp [hff]

theorem fileLookup_none_elim {fe : Bool} {lines : List Line} {rp : String}
    (hff : (if fe then assocGet lines rp else none) = none) :
    ¬ (fe = true ∧ assocGet lines rp ≠ none) := by
  cases fe with
  | false => simp
  | true => simp at hff; simp [hff]

theorem wrStep_inv (fe : Bool) (lines : List Line) (st : WrState) (r : Reference)
    (h : WrInv fe lines st) : WrInv fe lines (wrStep fe lines st r) := by
  obtain ⟨hnd, hsub, hiff⟩ := h
  cases hget : assocGet st.paths (_parse_refs r.path) with
  | some e =>
    have hkmem : _parse_refs r.path ∈ st.paths.map Prod.fst :=
      List.mem_map_of_mem Prod.fst (assocGet_mem hget)
    rw [wrStep_hit fe lines st r hget]
    have hkeys := assocSet_keys_of_mem (applyRef e r) hkmem
    exact ⟨by simpa [hkeys] using hnd, by simpa [hkeys] using hsub,
      by simpa [hkeys] using hiff⟩
  | none =>
    have hnotmem : _parse_refs r.path ∉ st.paths.map Prod.fst :=
      (assocGet_eq_none_iff _ _).mp hget
    have hnotupd : _parse_refs r.path ∉ st.updated := fun hu => hnotmem (hsub _ hu)
    cases hff : (if fe then assocGet lines (_parse_refs r.path) else none) with
    | some e0 =>
      rw [wrStep_miss_found fe lines st r e0 hget hff hnotupd]
      obtain ⟨hfe, hdisk⟩ := fileLookup_some_elim hff
      refine ⟨?_, ?_, ?_⟩
      · simp only [List.map_append, List.map_cons, List.map_nil]
        exact List.Nodup.append hnd (List.nodup_singleton _)
          (by simpa using hnotmem)
      · intro k hk
        simp only [List.mem_append, List.mem_singleton] at hk
        simp only [List.map_append, List.map_cons, List.map_nil, List.mem_append,
          List.mem_singleton]
        rcases hk with hk | hk
        · exact Or.inl (hsub _ hk)
        · exact Or.inr (by simp [hk])
      · intro k hk
        simp only [List.map_append, List.map_cons, List.map_nil, List.mem_append,
          List.mem_singleton] at hk
        simp only [List.mem_append, List.mem_singleton]
        rcases hk with hk | hk
        · have hkne : k ≠ _parse_refs r.path := fun he => hnotmem (he ▸ hk)
          simp only [hkne, or_false]
          exact hiff k hk
        · subst hk
          simp only [or_true, true_iff]
          exact ⟨hfe, hdisk⟩
    | none =>
      rw [wrStep_miss_new fe lines st r hget hff]
      have hnof := fileLookup_none_elim hff
      refine ⟨?_, ?_, ?_⟩
      · simp only [List.map_append, List.map_cons, List.map_nil]
        exact List.Nodup.append hnd (List.nodup_singleton _)
          (by simpa using hnotmem)
      · intro k hk
        simp only [List.map_append, List.map_cons, List.map_nil, List.mem_append,
          List.mem_singleton]
        exact Or.inl (hsub _ hk)
      · intro k hk
        simp only [List.map_append, List.map_cons, List.map_nil, List.mem_append,
          List.mem_singleton] at hk
        rcases hk with hk | hk
        · exact hiff k hk
        · subst hk
          constructor
          · intro hk2
            exact absurd (hsub _ hk2) hnotmem
          · intro hc
            exact absurd hc hnof

theorem wrInv_empty (fe : Bool) (lines : List Line) : WrInv fe lines ⟨[], []⟩ := by
  refine ⟨List.nodup_nil, ?_, ?_⟩ <;> intro k hk <;> simp at hk

theorem wrFold_inv (fe : Bool) (lines : List Line) (refs : List Reference) :
    ∀ st, WrInv fe lines st → WrInv fe lines (refs.foldl (wrStep fe lines) st) := by
  induction refs with
  | nil => intro st h; exact h
  | cons r rest ih => intro st h; exact ih _ (wrStep_inv fe lines st r h)

theorem wrStep_miss_paths (fe : Bool) (lines : List Line) (st : WrState) (r : Reference)
    (hget : assocGet st.paths (_parse_refs r.path) = none) :
    (wrStep fe lines st r).paths =
      st.paths ++ [(_parse_refs r.path,
        applyRef ((if fe then assocGet lines (_parse_refs r.path) else none).getD
          (_setup_new_path r.path_type)) r)] := by
  simp only [wrStep, hget]

theorem wrStep_keys_mem (fe : Bool) (lines : List Line) (st : WrState) (r : Reference)
    (k : String) :
    k ∈ ((wrStep fe lines st r).paths.map Prod.fst) ↔
      k ∈ st.paths.map Prod.fst ∨ k = _parse_refs r.path := by
  cases hget : assocGet st.paths (_parse_refs r.path) with
  | some e =>
    have hkmem := List.mem_map_of_mem Prod.fst (assocGet_mem hget)
    rw [wrStep_hit fe lines st r hget]
    have hkeys := assocSet_keys_of_mem (applyRef e r) hkmem
    simp only [hkeys]
    constructor
    · exact Or.inl
    · rintro (h | h)
      · exact h
      · exact h ▸ hkmem
  | none =>
    rw [wrStep_miss_paths fe lines st r hget]
    simp

theorem wrFold_keys_mem (fe : Bool) (lines : List Line) (refs : List Reference) :
    ∀ (st : WrState) (k : String),
      k ∈ ((refs.foldl (wrStep fe lines) st).paths.map Prod.fst) ↔
        k ∈ st.paths.map Prod.fst ∨ k ∈ batchKeys refs := by
  induction refs with
  | nil => intro st k; simp [batchKeys]
  | cons r rest ih =>
    intro st k
    rw [List.foldl_cons, ih, wrStep_keys_mem]
    simp only [batchKeys, List.map_cons, List.mem_cons]
    tauto

theorem wrFold_updated_general (fe : Bool) (lines : List Line) (refs : List Reference) :
    ∀ st, WrInv fe lines st →
      ∀ k, (k ∈ (refs.foldl (wrStep fe lines) st).updated ↔
        k ∈ st.updated ∨ (k ∉ st.paths.map Prod.fst ∧ k ∈ batchKeys refs ∧
          fe = true ∧ assocGet lines k ≠ none)) := by
  induction refs with
  | nil => intro st _ k; simp [batchKeys]
  | cons r rest ih =>
    intro st h k
    rw [List.foldl_cons, ih _ (wrStep_inv fe lines st r h)]
    obtain ⟨hnd, hsub, hiff⟩ := h
    cases hget : assocGet st.paths (_parse_refs r.path) with
    | some e =>
      have hkmem := List.mem_map_of_mem Prod.fst (assocGet_mem hget)
      rw [wrStep_hit fe lines st r hget]
      have hkeys := assocSet_keys_of_mem (applyRef e r) hkmem
      simp only [hkeys]
      by_cases hkrp : k = _parse_refs r.path
      · subst hkrp
        simp [batchKeys, hkmem]
      · simp only [batchKeys, List.map_cons, List.mem_cons]
        tauto
    | none =>
      have hnotmem : _parse_refs r.path ∉ st.paths.map Prod.fst :=
        (assocGet_eq_none_iff _ _).mp hget
      have hnotupd : _parse_refs r.path ∉ st.updated := fun hu => hnotmem (hsub _ hu)
      cases hff : (if fe then assocGet lines (_parse_refs r.path) else none) with
      | some e0 =>
        obtain ⟨hfe, hdisk⟩ := fileLookup_some_elim hff
        rw [wrStep_miss_found fe lines st r e0 hget hff hnotupd]
        simp only [List.map_append, List.map_cons, List.map_nil, List.mem_append,
          List.mem_singleton, batchKeys, List.mem_cons, List.not_mem_nil, or_false]
        by_cases hkrp : k = _parse_refs r.path
        · subst hkrp
          simp [hnotmem, hfe, hdisk]
        · tauto
      | none =>
        have hnof := fileLookup_none_elim hff
        rw [wrStep_miss_new fe lines st r hget hff]
        simp only [List.map_append, List.map_cons, List.map_nil, List.mem_append,
          List.mem_singleton, batchKeys, List.mem_cons, List.not_mem_nil, or_false]
        by_cases hkrp : k = _parse_refs r.path
        · subst hkrp
          have hx : ¬ (fe = true ∧ assocGet lines (_parse_refs r.path) ≠ none) := hnof
          tauto
        · tauto

theorem mem_getD_isSome {file : Option (List Line)} {l : Line}
    (h : l ∈ file.getD []) : file.isSome = true := by
  cases file with
  | none => simp at h
  | some lines => rfl

theorem wrFold_updated_iff (file : Option (List Line)) (refs : List Reference) (k : String) :
    k ∈ (refs.foldl (wrStep file.isSome (file.getD [])) ⟨[], []⟩).updated ↔
      k ∈ batchKeys refs ∧ assocGet (file.getD []) k ≠ none := by
  rw [wrFold_updated_general file.isSome (file.getD []) refs ⟨[], []⟩
    (wrInv_empty _ _) k]
  simp only [List.mem_nil_iff, false_or, List.map_nil]
  constructor
  · rintro ⟨-, hb, -, hd⟩
    exact ⟨hb, hd⟩
  · rintro ⟨hb, hd⟩
    obtain ⟨v, hv⟩ := Option.ne_none_iff_exists'.mp hd
    exact ⟨by simp, hb, mem_getD_isSome (assocGet_mem hv), hd⟩

theorem wrFold_updated_empty_iff (file : Option (List Line)) (refs : List Reference) :
    ((refs.foldl (wrStep file.isSome (file.getD [])) ⟨[], []⟩).updated.isEmpty = true) ↔
      ¬ diskTouched refs (file.getD []) := by
  rw [List.isEmpty_iff, List.eq_nil_iff_forall_not_mem]
  constructor
  · intro h hd
    obtain ⟨l, hl, hb⟩ := hd
    exact h l.1 ((wrFold_updated_iff file refs l.1).mpr
      ⟨hb, assocGet_ne_none_of_mem hl⟩)
  · intro h k hk
    obtain ⟨hb, hd⟩ := (wrFold_updated_iff file refs k).mp hk
    obtain ⟨v, hv⟩ := Option.ne_none_iff_exists'.mp hd
    exact h ⟨(k, v), assocGet_mem hv, hb⟩

theorem contains_eq_decide_mem (l : List String) (a : String) :
    l.contains a = decide (a ∈ l) := by
  by_cases h : a ∈ l <;> simp [h]

theorem batchKeys_ne_nil {refs : List Reference} (h : refs ≠ []) :
    batchKeys refs ≠ [] := by
  cases refs with
  | nil => exact absurd rfl h
  | cons r rest => simp [batchKeys]

/-- C2: one `write_references` batch against an existing index file either
rewrites it through the temporary file — copying through exactly the lines
whose key is not referenced in the batch and appending one fresh line per
distinct batch path — when some on-disk entry's path is referenced in the
batch, or plainly appends the fresh lines (creating the file when needed)
with no temporary file involved. -/
theorem write_references_merge_rewrite (refs : List Reference) (file : Option (List Line)) :
    ∃ fresh : List Line,
      ((fresh.map Prod.fst).Nodup ∧
        (∀ k, k ∈ fresh.map Prod.fst ↔ k ∈ batchKeys refs)) ∧
      (diskTouched refs (file.getD []) →
        write_references refs file =
          (some ((file.getD []).filter (fun l => decide (l.1 ∉ batchKeys refs)) ++ fresh),
           true)) ∧
      (¬ diskTouched refs (file.getD []) →
        (write_references refs file).2 = false ∧
        ((file = none ∧ refs = []) → (write_references refs file).1 = none) ∧
        ((file.isSome = true ∨ refs ≠ []) →
          (write_references refs file).1 = some (file.getD [] ++ fresh))) := by
  have hinv := wrFold_inv file.isSome (file.getD []) refs ⟨[], []⟩ (wrInv_empty _ _)
  refine ⟨(refs.foldl (wrStep file.isSome (file.getD [])) ⟨[], []⟩).paths, ⟨hinv.1, ?_⟩, ?_, ?_⟩
  · intro k
    rw [wrFold_keys_mem]
    simp
  · intro hd
    have hemp : (refs.foldl (wrStep file.isSome (file.getD [])) ⟨[], []⟩).updated.isEmpty
        = false := by
      rcases hb : (refs.foldl (wrStep file.isSome (file.getD [])) ⟨[], []⟩).updated.isEmpty
      · rfl
      · exact absurd hd ((wrFold_updated_empty_iff file refs).mp hb)
    have hfilter :
        (file.getD []).filter
            (fun l => !((refs.foldl (wrStep file.isSome (file.getD [])) ⟨[], []⟩).updated.contains l.1))
          = (file.getD []).filter (fun l => decide (l.1 ∉ batchKeys refs)) := by
      apply List.filter_congr
      intro l hl
      have hiff : l.1 ∈ (refs.foldl (wrStep file.isSome (file.getD [])) ⟨[], []⟩).updated ↔
          l.1 ∈ batchKeys refs :=
        (wrFold_updated_iff file refs l.1).trans
          (and_iff_left (assocGet_ne_none_of_mem hl))
      rw [contains_eq_decide_mem]
      rw [decide_not]
      rw [decide_eq_decide.mpr hiff]
    simp only [write_references, hemp, Bool.false_eq_true, if_false, hfilter]
  · intro hd
    have hemp : (refs.foldl (wrStep file.isSome (file.getD [])) ⟨[], []⟩).updated.isEmpty
        = true := (wrFold_updated_empty_iff file refs).mpr hd
    refine ⟨?_, ?_, ?_⟩
    · simp only [write_references, hemp, if_true]
    · rintro ⟨hfn, hrn⟩
      subst hrn
      simp only [write_references, List.foldl_nil, hemp, if_true]
      simp [hfn]
    · intro hor
      rcases hp : (refs.foldl (wrStep file.isSome (file.getD [])) ⟨[], []⟩).paths.isEmpty
      · simp only [write_references, hemp, if_true, hp, Bool.false_eq_true, if_false]
      · have hpaths : (refs.foldl (wrStep file.isSome (file.getD [])) ⟨[], []⟩).paths = [] :=
          List.isEmpty_iff.mp hp
        have hfresh : ∀ k, k ∈ batchKeys refs → False := by
          intro k hk
          have := (wrFold_keys_mem file.isSome (file.getD []) refs ⟨[], []⟩ k).mpr
            (Or.inr hk)
          rw [hpaths] at this
          simp at this
        have hrefs : refs = [] := by
          cases refs with
          | nil => rfl
          | cons r rest =>
            exact (hfresh (_parse_refs r.path) (by simp [batchKeys])).elim
        subst hrefs
        rcases hor with hor | hor
        · cases file with
          | none => simp at hor
          | some lines =>
            simp only [write_references, List.foldl_nil, hemp, if_true]
            simp
        · exact absurd rfl hor

theorem write_single_noStream (file : Option (List Line)) (P M : String) :
    ∃ pre E,
      (write_references [⟨M, none, P, "file"⟩] file).1 = some (pre ++ [(P, E)]) ∧
      P ∉ pre.map Prod.fst ∧
      M ∈ E.md_ids ∧
      (∀ a E0, assocGet (file.getD []) P = some E0 → a ∈ E0.md_ids → a ∈ E.md_ids) := by
  have hrp : _parse_refs (Reference.path ⟨M, none, P, "file"⟩) = P := rfl
  cases file with
  | none =>
    refine ⟨[], applyRef (_setup_new_path "file") ⟨M, none, P, "file"⟩, ?_, ?_, ?_, ?_⟩
    · simp only [write_references, List.foldl_cons, List.foldl_nil]
      rw [wrStep_miss_new _ _ _ _ (by rfl) (by rfl)]
      rfl
    · simp
    · simp [applyRef, mem_uniques_list]
    · intro a E0 h0
      simp [assocGet] at h0
  | some lines =>
    cases hget : assocGet lines P with
    | none =>
      refine ⟨lines, applyRef (_setup_new_path "file") ⟨M, none, P, "file"⟩, ?_, ?_, ?_, ?_⟩
      · simp only [write_references, List.foldl_cons, List.foldl_nil]
        rw [wrStep_miss_new _ _ _ _ (by rfl) (by simpa [hrp] using hget)]
        rfl
      · exact (assocGet_eq_none_iff _ _).mp hget
      · simp [applyRef, mem_uniques_list]
      · intro a E0 h0
        rw [show (some lines : Option (List Line)).getD [] = lines from rfl] at h0
        rw [hget] at h0
        exact absurd h0 (by simp)
    | some E0 =>
      refine ⟨lines.filter (fun l => !([P].contains l.1)),
        applyRef E0 ⟨M, none, P, "file"⟩, ?_, ?_, ?_, ?_⟩
      · simp only [write_references, List.foldl_cons, List.foldl_nil]
        rw [wrStep_miss_found _ _ _ _ E0 (by rfl) (by simpa [hrp] using hget) (by simp)]
        rfl
      · intro hmem
        simp only [List.mem_map] at hmem
        obtain ⟨l, hl, hlp⟩ := hmem
        rw [List.mem_filter] at hl
        have := hl.2
        simp [hlp] at this
      · simp [applyRef, mem_uniques_list]
      · intro a E1 h1 ha
        rw [show (some lines : Option (List Line)).getD [] = lines from rfl, hget] at h1
        cases h1
        simp [applyRef, mem_uniques_list, ha]

/-- C1: two separate `MetsSectionCreator` instances that each add one
reference for the same path (with different metadata IDs) and write
against the same index file leave an index whose entry for that path holds
both IDs — the on-disk entry is merged with, not overwritten. -/
theorem write_references_merges_across_instances (file : Option (List Line))
    (P A B : String) (hAB : A ≠ B) :
    ∃ E : Entry,
      (read_md_references
          (write_references [add_reference B P none none]
            (write_references [add_reference A P none none] file).1).1).bind
        (fun rd => assocGet rd P) = some E ∧ A ∈ E.md_ids ∧ B ∈ E.md_ids := by
  have hA : add_reference A P none none = ⟨A, none, P, "file"⟩ := rfl
  have hB : add_reference B P none none = ⟨B, none, P, "file"⟩ := rfl
  rw [hA, hB]
  obtain ⟨pre1, E1, hf1, hp1, hm1, _⟩ := write_single_noStream file P A
  rw [hf1]
  obtain ⟨pre2, E2, hf2, hp2, hm2, hpres2⟩ :=
    write_single_noStream (some (pre1 ++ [(P, E1)])) P B
  rw [hf2]
  have hget1 : assocGet (pre1 ++ [(P, E1)]) P = some E1 := by
    rw [assocGet_append_of_none _ ((assocGet_eq_none_iff _ _).mpr hp1)]
    simp [assocGet]
  have hAinE2 : A ∈ E2.md_ids := hpres2 A E1 hget1 hm1
  refine ⟨E2, ?_, hAinE2, hm2⟩
  simp only [read_md_references, Option.bind]
  rw [read_fold_lookup]
  have hrev : assocGet ((pre2 ++ [(P, E2)]).reverse) P = some E2 := by
    rw [List.reverse_append]
    simp [assocGet]
  rw [hrev]

theorem ufold_nodup (ids : List String) :
    ∀ l : List String, l.Nodup → (ids.foldl _uniques_list l).Nodup := by
  induction ids with
  | nil => intro l h; exact h
  | cons a rest ih => intro l _; exact ih _ (uniques_list_nodup l a)

theorem ufold_toFinset (ids : List String) :
    ∀ l : List String, (ids.foldl _uniques_list l).toFinset = l.toFinset ∪ ids.toFinset := by
  induction ids with
  | nil => intro l; simp
  | cons a rest ih =>
    intro l
    rw [List.foldl_cons, ih, uniques_list_toFinset]
    ext x
    simp only [Finset.mem_union, List.mem_toFinset, Finset.mem_singleton, List.mem_cons]
    tauto

theorem mdUpdFold_md_ids (ids : List String) :
    ∀ e : Entry,
      (ids.foldl (fun acc a => { acc with md_ids := _uniques_list acc.md_ids a }) e).md_ids =
        ids.foldl _uniques_list e.md_ids := by
  induction ids with
  | nil => intro e; rfl
  | cons a rest ih => intro e; rw [List.foldl_cons, List.foldl_cons, ih]

theorem mdUpdFold_streams (ids : List String) :
    ∀ e : Entry,
      (ids.foldl (fun acc a => { acc with md_ids := _uniques_list acc.md_ids a }) e).streams =
        e.streams := by
  induction ids with
  | nil => intro e; rfl
  | cons a rest ih => intro e; rw [List.foldl_cons, ih]

theorem mdUpdFold_path_type (ids : List String) :
    ∀ e : Entry,
      (ids.foldl (fun acc a => { acc with md_ids := _uniques_list acc.md_ids a }) e).path_type =
        e.path_type := by
  induction ids with
  | nil => intro e; rfl
  | cons a rest ih => intro e; rw [List.foldl_cons, ih]

theorem applyRef_noStream (e : Entry) (M p t : String) :
    applyRef e ⟨M, none, p, t⟩ = { e with md_ids := _uniques_list e.md_ids M } := rfl

theorem samePath_fold (fe : Bool) (lines : List Line) (p : String) (ids : List String) :
    ∀ (e : Entry) (upd : List String),
      (ids.map (fun a => (⟨a, none, p, "file"⟩ : Reference))).foldl (wrStep fe lines)
          ⟨[(p, e)], upd⟩ =
        ⟨[(p, ids.foldl (fun acc a => { acc with md_ids := _uniques_list acc.md_ids a }) e)],
          upd⟩ := by
  induction ids with
  | nil => intro e upd; rfl
  | cons a rest ih =>
    intro e upd
    rw [List.map_cons, List.foldl_cons]
    have hget : assocGet [(p, e)] (_parse_refs (Reference.path ⟨a, none, p, "file"⟩))
        = some e := by simp [assocGet, _parse_refs]
    rw [wrStep_hit fe lines _ _ hget]
    have hset : assocSet [(p, e)] (_parse_refs (Reference.path ⟨a, none, p, "file"⟩))
        (applyRef e ⟨a, none, p, "file"⟩) = [(p, applyRef e ⟨a, none, p, "file"⟩)] := by
      simp [assocSet, _parse_refs]
    rw [hset, applyRef_noStream]
    exact ih _ upd

theorem mkRefsNoStream_eq (p : String) (ids : List String) :
    mkRefsNoStream p ids = ids.map (fun a => (⟨a, none, p, "file"⟩ : Reference)) := by
  simp [mkRefsNoStream, add_reference]

theorem flush_preserves_FInv (p : String) (ids : List String) (f : Option (List Line))
    (acc : List String) (h : FInv p f acc) :
    FInv p (write_references (mkRefsNoStream p ids) f).1 (acc ++ ids) := by
  cases ids with
  | nil =>
    simp only [mkRefsNoStream, List.map_nil, List.append_nil]
    have hwr : write_references [] f = (f, false) := by
      simp [write_references]
    rw [hwr]
    exact h
  | cons a rest =>
    rw [mkRefsNoStream_eq]
    rcases h with ⟨hf, hacc⟩ | ⟨E0, hf, hnd, hfin, hstr, hpt⟩
    · subst hf hacc
      have hstep : wrStep (none : Option (List Line)).isSome
          ((none : Option (List Line)).getD []) ⟨[], []⟩
          (⟨a, none, p, "file"⟩ : Reference) =
          ⟨[(p, ⟨"file", _uniques_list [] a, []⟩)], []⟩ := by
        rw [wrStep_miss_new _ _ _ _ (by rfl) (by rfl)]
        rfl
      have hfold : ((a :: rest).map (fun x => (⟨x, none, p, "file"⟩ : Reference))).foldl
          (wrStep (none : Option (List Line)).isSome ((none : Option (List Line)).getD []))
          ⟨[], []⟩ =
          ⟨[(p, rest.foldl (fun acc x => { acc with md_ids := _uniques_list acc.md_ids x })
            (⟨"file", _uniques_list [] a, []⟩ : Entry))], []⟩ := by
        rw [List.map_cons, List.foldl_cons, hstep, samePath_fold]
      have hwr : write_references
          ((a :: rest).map (fun x => (⟨x, none, p, "file"⟩ : Reference))) none =
          (some [(p, rest.foldl (fun acc x => { acc with md_ids := _uniques_list acc.md_ids x })
            (⟨"file", _uniques_list [] a, []⟩ : Entry))], false) := by
        simp only [write_references, hfold]
        rfl
      rw [hwr]
      refine Or.inr ⟨_, rfl, ?_, ?_, ?_, ?_⟩
      · rw [mdUpdFold_md_ids]
        exact ufold_nodup _ _ (uniques_list_nodup _ _)
      · rw [mdUpdFold_md_ids, ufold_toFinset, uniques_list_toFinset]
        ext x
        simp only [Finset.mem_union, List.mem_toFinset, Finset.mem_singleton,
          List.mem_cons, List.nil_append, List.toFinset_nil, Finset.not_mem_empty]
        tauto
      · rw [mdUpdFold_streams]
      · rw [mdUpdFold_path_type]
    · subst hf
      have hget0 : assocGet ([(p, E0)] : List Line) p = some E0 := by simp [assocGet]
      have hstep : wrStep (some [(p, E0)] : Option (List Line)).isSome
          ((some [(p, E0)] : Option (List Line)).getD []) ⟨[], []⟩
          (⟨a, none, p, "file"⟩ : Reference) =
          ⟨[(p, { E0 with md_ids := _uniques_list E0.md_ids a })], [p]⟩ := by
        rw [wrStep_miss_found _ _ _ _ E0 (by rfl) (by simpa using hget0) (by simp)]
        rfl
      have hfold : ((a :: rest).map (fun x => (⟨x, none, p, "file"⟩ : Reference))).foldl
          (wrStep (some [(p, E0)] : Option (List Line)).isSome
            ((some [(p, E0)] : Option (List Line)).getD []))
          ⟨[], []⟩ =
          ⟨[(p, rest.foldl (fun acc x => { acc with md_ids := _uniques_list acc.md_ids x })
            ({ E0 with md_ids := _uniques_list E0.md_ids a } : Entry))], [p]⟩ := by
        rw [List.map_cons, List.foldl_cons, hstep, samePath_fold]
      have hwr : write_references
          ((a :: rest).map (fun x => (⟨x, none, p, "file"⟩ : Reference))) (some [(p, E0)]) =
          (some [(p, rest.foldl (fun acc x => { acc with md_ids := _uniques_list acc.md_ids x })
            ({ E0 with md_ids := _uniques_list E0.md_ids a } : Entry))], true) := by
        simp only [write_references, hfold]
        simp
      rw [hwr]
      refine Or.inr ⟨_, rfl, ?_, ?_, ?_, ?_⟩
      · rw [mdUpdFold_md_ids]
        exact ufold_nodup _ _ (uniques_list_nodup _ _)
      · rw [mdUpdFold_md_ids, ufold_toFinset, uniques_list_toFinset, hfin]
        ext x
        simp only [Finset.mem_union, List.mem_toFinset, Finset.mem_singleton,
          List.mem_cons, List.mem_append]
        tauto
      · rw [mdUpdFold_streams]
        exact hstr
      · rw [mdUpdFold_path_type]
        exact hpt

theorem multiFlush_FInv_general (p : String) (batches : List (List String)) :
    ∀ (f : Option (List Line)) (acc : List String), FInv p f acc →
      FInv p (batches.foldl (fun f ids => (write_references (mkRefsNoStream p ids) f).1) f)
        (acc ++ batches.flatten) := by
  induction batches with
  | nil => intro f acc h; simpa using h
  | cons ids rest ih =>
    intro f acc h
    rw [List.foldl_cons, List.flatten_cons, ← List.append_assoc]
    exact ih _ _ (flush_preserves_FInv p ids f acc h)

theorem multiFlush_FInv (p : String) (batches : List (List String)) :
    FInv p (multiFlush p batches) batches.flatten := by
  have := multiFlush_FInv_general p batches none [] (Or.inl ⟨rfl, rfl⟩)
  simpa [multiFlush] using this

theorem applyRef_wf (e : Entry) (r : Reference) (h : EntryWF e) : EntryWF (applyRef e r) := by
  obtain ⟨hmd, hstr⟩ := h
  cases hs : r.stream with
  | none =>
    simp only [applyRef, hs]
    exact ⟨uniques_list_nodup _ _, hstr⟩
  | some s =>
    by_cases h0 : s ≠ 0
    · simp only [applyRef, hs, if_pos h0]
      refine ⟨hmd, ?_⟩
      intro kv hkv
      rcases hget : assocGet e.streams s with _ | ids <;> rw [hget] at hkv
      · rcases mem_assocSet hkv with hkv2 | hkv2
        · subst hkv2
          exact List.nodup_singleton _
        · exact hstr _ hkv2
      · rcases mem_assocSet hkv with hkv2 | hkv2
        · subst hkv2
          exact uniques_list_nodup _ _
        · exact hstr _ hkv2
    · simp only [applyRef, hs, if_neg h0]
      exact ⟨uniques_list_nodup _ _, hstr⟩

theorem wrFold_paths_wf (fe : Bool) (lines : List Line)
    (hlines : ∀ l ∈ lines, EntryWF l.2) (refs : List Reference) :
    ∀ st : WrState, (∀ l ∈ st.paths, EntryWF l.2) →
      ∀ l ∈ (refs.foldl (wrStep fe lines) st).paths, EntryWF l.2 := by
  induction refs with
  | nil => intro st h; exact h
  | cons r rest ih =>
    intro st h
    rw [List.foldl_cons]
    apply ih
    cases hget : assocGet st.paths (_parse_refs r.path) with
    | some e =>
      rw [wrStep_hit fe lines st r hget]
      intro l hl
      rcases mem_assocSet hl with hl | hl
      · subst hl
        exact applyRef_wf e r (h _ (assocGet_mem hget))
      · exact h _ hl
    | none =>
      have hp := wrStep_miss_paths fe lines st r hget
      intro l hl
      rw [hp] at hl
      rcases List.mem_append.mp hl with hl | hl
      · exact h _ hl
      · rw [List.mem_singleton] at hl
        subst hl
        apply applyRef_wf
        cases hfe : fe with
        | false => exact ⟨List.nodup_nil, by simp [_setup_new_path]⟩
        | true =>
          cases hget2 : assocGet lines (_parse_refs r.path) with
          | none => exact ⟨List.nodup_nil, by simp [_setup_new_path]⟩
          | some e0 =>
            simp only [hfe, if_true, hget2, Option.getD_some]
            exact hlines _ (assocGet_mem hget2)

theorem write_references_wf (refs : List Reference) (file : Option (List Line))
    (h : ∀ l ∈ file.getD [], EntryWF l.2) :
    ∀ l ∈ ((write_references refs file).1.getD []), EntryWF l.2 := by
  have hpaths := wrFold_paths_wf file.isSome (file.getD []) h refs ⟨[], []⟩ (by simp)
  intro l hl
  simp only [write_references] at hl
  rcases hemp : (refs.foldl (wrStep file.isSome (file.getD [])) ⟨[], []⟩).updated.isEmpty
  · rw [hemp] at hl
    simp only [Bool.false_eq_true, if_false, Option.getD_some] at hl
    rcases List.mem_append.mp hl with hl2 | hl2
    · exact h _ (List.mem_filter.mp hl2).1
    · exact hpaths _ hl2
  · rw [hemp] at hl
    simp only [if_true] at hl
    rcases hpe : (refs.foldl (wrStep file.isSome (file.getD [])) ⟨[], []⟩).paths.isEmpty
    · rw [hpe] at hl
      simp only [Bool.false_eq_true, if_false, Option.getD_some] at hl
      rcases List.mem_append.mp hl with hl2 | hl2
      · exact h _ hl2
      · exact hpaths _ hl2
    · rw [hpe] at hl
      simp only [if_true] at hl
      exact h _ hl

/-- C5: flushing any batches of references that map IDs to one path with no
stream — repeated IDs allowed, within or across flushes — leaves an index
entry whose `md_ids` are duplicate-free and exactly the set of distinct
flushed IDs; and one `write_references` call preserves duplicate-freeness
of `md_ids` and all per-stream lists across the whole file. -/
theorem md_ids_accumulate_and_nodup :
    (∀ (p : String) (batches : List (List String)), batches.flatten ≠ [] →
      ∃ E, read_md_references (multiFlush p batches) = some [(p, E)] ∧
        E.md_ids.Nodup ∧ E.md_ids.toFinset = batches.flatten.toFinset ∧
        E.path_type = "file" ∧ E.streams = []) ∧
    (∀ (refs : List Reference) (file : Option (List Line)),
      (∀ l ∈ file.getD [], EntryWF l.2) →
      ∀ l ∈ ((write_references refs file).1.getD []), EntryWF l.2) := by
  constructor
  · intro p batches hne
    rcases multiFlush_FInv p batches with ⟨hf, hacc⟩ | ⟨E, hf, hnd, hfin, hstr, hpt⟩
    · exact absurd hacc hne
    · refine ⟨E, ?_, hnd, hfin, hpt, hstr⟩
      rw [hf]
      simp [read_md_references, assocSet]
  · exact write_references_wf

/-- C4 (code-bug evidence): `add_reference` with stream index 0 followed by
stream index 1 and a flush: because `if ref['stream']:` is false for the
Python int 0, the ID given for stream 0 is recorded under the top-level
`md_ids` and the read-back entry's `streams` holds only stream 1, not
`{0: ['_x'], 1: ['_y']}` as the specification's scenario requires. -/
theorem write_references_stream_zero_eval :
    read_md_references
      (write_references
        [add_reference "_x" "data/a.tif" (some 0) none,
         add_reference "_y" "data/a.tif" (some 1) none] none).1
    = some [("data/a.tif", ⟨"file", ["_x"], [(1, ["_y"])]⟩)] := by decide

theorem nofilter_fold_mem (rd : List Line) :
    ∀ (l0 : List String) (a : String),
      a ∈ rd.foldl (fun acc p => acc ++ p.2.md_ids) l0 ↔
        a ∈ l0 ∨ ∃ p ∈ rd, a ∈ p.2.md_ids := by
  induction rd with
  | nil => intro l0 a; simp
  | cons p rest ih =>
    intro l0 a
    rw [List.foldl_cons, ih]
    simp only [List.mem_append, List.mem_cons]
    constructor
    · rintro ((h | h) | ⟨q, hq, hqm⟩)
      · exact Or.inl h
      · exact Or.inr ⟨p, Or.inl rfl, h⟩
      · exact Or.inr ⟨q, Or.inr hq, hqm⟩
    · rintro (h | ⟨q, hq | hq, hqm⟩)
      · exact Or.inl (Or.inl h)
      · exact Or.inl (Or.inr (hq ▸ hqm))
      · exact Or.inr ⟨q, hq, hqm⟩

/-- C7 amended: with no path, stream, or directory filter,
`get_md_references` returns the union of `md_ids` over every entry of the
mapping, with no restriction on `path_type` (directory entries included). -/
theorem get_md_nofilter_eq (rd : List Line) :
    get_md_references (some rd) none none none =
      some ((rd.foldl (fun acc p => acc ++ p.2.md_ids) []).toFinset) := rfl

theorem get_md_references_nofilter_union (rd : List Line) (a : String) :
    a ∈ (get_md_references (some rd) none none none).getD ∅ ↔
      ∃ p ∈ rd, a ∈ p.2.md_ids := by
  rw [get_md_nofilter_eq, Option.getD_some, List.mem_toFinset, nofilter_fold_mem]
  simp

/-- C7 counterexample: on a mapping holding one directory-type entry, the
unfiltered `get_md_references` returns that entry's IDs, not the
file-type-only union (which is empty) that the claim predicts. -/
theorem get_md_references_includes_directories_cex :
    get_md_references (some [("d", ⟨"directory", ["_d"], []⟩)]) none none none
      = some ({"_d"} : Finset String) ∧
    fileOnlyUnion [("d", ⟨"directory", ["_d"], []⟩)] = (∅ : Finset String) ∧
    get_md_references (some [("d", ⟨"directory", ["_d"], []⟩)]) none none none
      ≠ some (fileOnlyUnion [("d", ⟨"directory", ["_d"], []⟩)]) := by
  refine ⟨by decide, by decide, by decide⟩

theorem streamFold_eq (s : Nat) (streams : List (Nat × List String)) :
    ∀ init : List String,
      streams.foldl (fun (acc : List String) (kv : Nat × List String) =>
          if kv.1 = s then kv.2 else acc) init =
        (assocGet streams.reverse s).getD init := by
  induction streams with
  | nil => intro init; simp [assocGet]
  | cons kv rest ih =>
    intro init
    rw [List.foldl_cons, ih, List.reverse_cons]
    cases hrev : assocGet rest.reverse s with
    | some v =>
      rw [assocGet_append_of_some _ hrev]
      simp
    | none =>
      rw [assocGet_append_of_none _ hrev]
      by_cases hk : kv.1 = s
      · simp [assocGet, hk]
      · simp [assocGet, hk]

theorem assocGet_of_mem_nodup {α β : Type} [DecidableEq α] {l : List (α × β)} {k : α} {v : β}
    (hnd : (l.map Prod.fst).Nodup) (hm : (k, v) ∈ l) : assocGet l k = some v := by
  induction l with
  | nil => simp at hm
  | cons p rest ih =>
    rcases List.mem_cons.mp hm with hm | hm
    · subst hm
      simp [assocGet]
    · have hk : p.1 ≠ k := by
        intro he
        have : k ∈ rest.map Prod.fst := List.mem_map_of_mem Prod.fst hm
        rw [List.map_cons] at hnd
        exact (List.nodup_cons.mp hnd).1 (he ▸ this)
      simp only [assocGet, if_neg hk]
      exact ih (by rw [List.map_cons] at hnd; exact (List.nodup_cons.mp hnd).2) hm

/-- C8: with a path filter and a stream filter, `get_md_references` returns
exactly the ID set recorded for that stream of that path (the stream keys
of a read-back entry are unique), and the empty set when the stream was
never referenced for that path. -/
theorem get_md_path_stream_eq (rd : List Line) (P : String) (s : Nat) :
    get_md_references (some rd) (some P) (some s) none =
      some ((((assocGet rd P).map
        (fun e => e.streams.foldl
          (fun (acc : List String) (kv : Nat × List String) =>
            if kv.1 = s then kv.2 else acc) [])).getD []).toFinset) := rfl

/-- C8: with a path filter and a stream filter, `get_md_references` returns
exactly the ID set recorded for that stream of that path (the stream keys
of a read-back entry are unique), and the empty set when the stream was
never referenced for that path. -/
theorem get_md_references_stream_lookup (rd : List Line) (P : String) (E : Entry) (s : Nat)
    (hE : assocGet rd P = some E) (hnd : (E.streams.map Prod.fst).Nodup) :
    (∀ L, (s, L) ∈ E.streams →
      get_md_references (some rd) (some P) (some s) none = some L.toFinset) ∧
    (s ∉ E.streams.map Prod.fst →
      get_md_references (some rd) (some P) (some s) none = some (∅ : Finset String)) := by
  constructor
  · intro L hL
    rw [get_md_path_stream_eq, hE]
    simp only [Option.map_some', Option.getD_some]
    rw [streamFold_eq]
    have hrev : assocGet E.streams.reverse s = some L := by
      apply assocGet_of_mem_nodup
      · rw [List.map_reverse, List.nodup_reverse]
        exact hnd
      · exact List.mem_reverse.mpr hL
    rw [hrev]
    rfl
  · intro hs
    rw [get_md_path_stream_eq, hE]
    simp only [Option.map_some', Option.getD_some]
    rw [streamFold_eq]
    have hrev : assocGet E.streams.reverse s = none := by
      rw [assocGet_eq_none_iff, List.map_reverse, List.mem_reverse]
      exact hs
    rw [hrev]
    rfl

theorem get_md_dir_eq (rd : List Line) (path : Option String) (stream : Option Nat)
    (d : String) (hd : d ≠ "") :
    get_md_references (some rd) path stream (some d) =
      some ((((assocGet rd (normpath d)).map Entry.md_ids).getD []).toFinset) := by
  have hc1 : ¬((some d : Option String).isNone = true ∧ path.isNone = true ∧
      stream.isNone = true) := by simp
  have hc2 : ((some d : Option String).getD "") ≠ "" := hd
  simp only [get_md_references, if_neg hc1, if_pos hc2, Option.getD_some]
  rw [if_pos hd]

theorem get_md_path_eq (rd : List Line) (P : String) :
    get_md_references (some rd) (some P) none none =
      some ((((assocGet rd P).map Entry.md_ids).getD []).toFinset) := rfl

/-- C9 amended: on a non-`None` mapping, every lookup whose consulted key
is absent — the exact path, the `normpath`-normalized directory, or the
stream index of a present path — returns the empty set; the function is
total, the `except KeyError` making misses non-errors. -/
theorem get_md_references_miss_empty (rd : List Line) :
    (∀ (d : String) (path : Option String) (stream : Option Nat), d ≠ "" →
      assocGet rd (normpath d) = none →
      get_md_references (some rd) path stream (some d) = some (∅ : Finset String)) ∧
    (∀ P : String, assocGet rd P = none →
      get_md_references (some rd) (some P) none none = some (∅ : Finset String)) ∧
    (∀ (P : String) (s : Nat), assocGet rd P = none →
      get_md_references (some rd) (some P) (some s) none = some (∅ : Finset String)) ∧
    (∀ (P : String) (E : Entry) (s : Nat), assocGet rd P = some E →
      s ∉ E.streams.map Prod.fst →
      get_md_references (some rd) (some P) (some s) none = some (∅ : Finset String)) := by
  refine ⟨?_, ?_, ?_, ?_⟩
  · intro d path stream hd hmiss
    rw [get_md_dir_eq rd path stream d hd, hmiss]
    rfl
  · intro P hmiss
    rw [get_md_path_eq, hmiss]
    rfl
  · intro P s hmiss
    rw [get_md_path_stream_eq, hmiss]
    rfl
  · intro P E s hE hs
    rw [get_md_path_stream_eq, hE]
    simp only [Option.map_some', Option.getD_some]
    rw [streamFold_eq]
    have hrev : assocGet E.streams.reverse s = none := by
      rw [assocGet_eq_none_iff, List.map_reverse, List.mem_reverse]
      exact hs
    rw [hrev]
    rfl

/-- C9 counterexample: the directory argument `"b/"` has no entry in the
mapping `{"b": ...}`, yet `get_md_references` normalizes it with
`os.path.normpath` to `"b"` and returns that entry's IDs instead of the
empty set the claim predicts for a key with no entry. -/
theorem get_md_references_normalized_directory_cex :
    assocGet ([("b", ⟨"file", ["_m"], []⟩)] : List Line) "b/" = none ∧
    get_md_references (some [("b", ⟨"file", ["_m"], []⟩)]) none none (some "b/")
      = some ({"_m"} : Finset String) ∧
    some ({"_m"} : Finset String) ≠ some (∅ : Finset String) := by
  refine ⟨by decide, by decide, by decide⟩

/-- C10: a missing index file is distinguishable from an empty one —
`read_md_references` returns `None` (not an empty mapping) when the file
does not exist and an empty mapping for an existing empty file, and
`get_md_references` applied to `None` returns `None` rather than any set,
so no lookup on a missing index yields an empty set. -/
theorem missing_index_distinguishable :
    read_md_references none = none ∧
    read_md_references (some []) = some [] ∧
    ∀ (path : Option String) (stream : Option Nat) (directory : Option String),
      get_md_references none path stream directory = none :=
  ⟨rfl, rfl, fun _ _ _ => rfl⟩

/-- C3: writing the same metadata element twice produces exactly one
metadata file: the first call creates the single file named from the
digest and the suffix (`othermdtype` if given, else `mdtype`) and returns
`("_" ++ digest, filename)`; the second call returns the identical pair
and performs no write, leaving the filesystem unchanged. -/
theorem write_md_idempotent (ws : String) (fs0 : List String) (E : Element)
    (mdtype mdtypeversion : String) (othermdtype : Option String) (sect : Option String)
    (hfresh : md_filename ws (generate_digest E) (md_suffix mdtype othermdtype) ∉ fs0) :
    write_md ws fs0 E mdtype mdtypeversion othermdtype sect =
      (("_" ++ generate_digest E,
        md_filename ws (generate_digest E) (md_suffix mdtype othermdtype)),
       fs0 ++ [md_filename ws (generate_digest E) (md_suffix mdtype othermdtype)], true) ∧
    write_md ws (fs0 ++ [md_filename ws (generate_digest E) (md_suffix mdtype othermdtype)])
        E mdtype mdtypeversion othermdtype sect =
      (("_" ++ generate_digest E,
        md_filename ws (generate_digest E) (md_suffix mdtype othermdtype)),
       fs0 ++ [md_filename ws (generate_digest E) (md_suffix mdtype othermdtype)], false) := by
  constructor
  · simp only [write_md]
    rw [if_neg hfresh]
  · simp only [write_md]
    rw [if_pos (by simp)]

theorem charsLe_cons_iff (x y : Char) (xs ys : List Char) :
    charsLe (x :: xs) (y :: ys) = true ↔
      x.toNat < y.toNat ∨ (x.toNat = y.toNat ∧ charsLe xs ys = true) := by
  by_cases h1 : x.toNat < y.toNat
  · simp [charsLe, h1]
  · by_cases h2 : y.toNat < x.toNat
    · simp [charsLe, h1, h2]
      omega
    · have he : x.toNat = y.toNat := by omega
      simp [charsLe, h1, h2, he]

theorem charsLe_total : ∀ a b : List Char, charsLe a b = true ∨ charsLe b a = true := by
  intro a
  induction a with
  | nil => intro b; exact Or.inl rfl
  | cons x xs ih =>
    intro b
    cases b with
    | nil => exact Or.inr rfl
    | cons y ys =>
      rcases Nat.lt_trichotomy x.toNat y.toNat with h | h | h
      · exact Or.inl ((charsLe_cons_iff _ _ _ _).mpr (Or.inl h))
      · rcases ih ys with h2 | h2
        · exact Or.inl ((charsLe_cons_iff _ _ _ _).mpr (Or.inr ⟨h, h2⟩))
        · exact Or.inr ((charsLe_cons_iff _ _ _ _).mpr (Or.inr ⟨h.symm, h2⟩))
      · exact Or.inr ((charsLe_cons_iff _ _ _ _).mpr (Or.inl h))

theorem charsLe_trans : ∀ a b c : List Char,
    charsLe a b = true → charsLe b c = true → charsLe a c = true := by
  intro a
  induction a with
  | nil => intro b c _ _; rfl
  | cons x xs ih =>
    intro b c hab hbc
    cases b with
    | nil => simp [charsLe] at hab
    | cons y ys =>
      cases c with
      | nil => simp [charsLe] at hbc
      | cons z zs =>
        rcases (charsLe_cons_iff _ _ _ _).mp hab with h1 | ⟨h1, h1r⟩ <;>
          rcases (charsLe_cons_iff _ _ _ _).mp hbc with h2 | ⟨h2, h2r⟩
        · exact (charsLe_cons_iff _ _ _ _).mpr (Or.inl (h1.trans h2))
        · exact (charsLe_cons_iff _ _ _ _).mpr (Or.inl (h2 ▸ h1))
        · exact (charsLe_cons_iff _ _ _ _).mpr (Or.inl (h1 ▸ h2))
        · exact (charsLe_cons_iff _ _ _ _).mpr
            (Or.inr ⟨h1.trans h2, ih ys zs h1r h2r⟩)

theorem char_toNat_inj {x y : Char} (h : x.toNat = y.toNat) : x = y := by
  have hx := Char.ofNat_toNat x
  have hy := Char.ofNat_toNat y
  rw [← hx, ← hy, h]

theorem charsLe_antisymm : ∀ a b : List Char,
    charsLe a b = true → charsLe b a = true → a = b := by
  intro a
  induction a with
  | nil =>
    intro b _ hba
    cases b with
    | nil => rfl
    | cons y ys => simp [charsLe] at hba
  | cons x xs ih =>
    intro b hab hba
    cases b with
    | nil => simp [charsLe] at hab
    | cons y ys =>
      rcases (charsLe_cons_iff _ _ _ _).mp hab with h1 | ⟨h1, h1r⟩ <;>
        rcases (charsLe_cons_iff _ _ _ _).mp hba with h2 | ⟨h2, h2r⟩
      · omega
      · omega
      · omega
      · rw [char_toNat_inj h1, ih ys h1r h2r]

instance : IsTotal (String × String) attrLe := by
  constructor
  intro p q
  by_cases h : p.1.data = q.1.data
  · unfold attrLe
    rw [if_pos h, if_pos h.symm]
    exact charsLe_total _ _
  · unfold attrLe
    rw [if_neg h, if_neg (fun h2 => h h2.symm)]
    exact charsLe_total _ _

instance : IsTrans (String × String) attrLe := by
  constructor
  intro p q r hpq hqr
  unfold attrLe at hpq hqr ⊢
  by_cases h1 : p.1.data = q.1.data <;> by_cases h2 : q.1.data = r.1.data
  · rw [if_pos h1] at hpq
    rw [if_pos h2] at hqr
    rw [if_pos (h1.trans h2)]
    exact charsLe_trans _ _ _ hpq hqr
  · rw [if_pos h1] at hpq
    rw [if_neg h2] at hqr
    rw [if_neg (fun h3 => h2 (h1.symm.trans h3)), h1]
    exact hqr
  · rw [if_neg h1] at hpq
    rw [if_pos h2] at hqr
    rw [if_neg (fun h3 => h1 (h3.trans h2.symm)), ← h2]
    exact hpq
  · rw [if_neg h1] at hpq
    rw [if_neg h2] at hqr
    by_cases h3 : p.1.data = r.1.data
    · exact absurd (charsLe_antisymm _ _ hpq (h3 ▸ hqr)) h1
    · rw [if_neg h3]
      exact charsLe_trans _ _ _ hpq hqr

instance : IsAntisymm (String × String) attrLe := by
  constructor
  intro p q hpq hqp
  unfold attrLe at hpq hqp
  by_cases h : p.1.data = q.1.data
  · rw [if_pos h] at hpq
    rw [if_pos h.symm] at hqp
    have h2 := charsLe_antisymm _ _ hpq hqp
    have hp1 : p.1 = q.1 := String.ext h
    have hp2 : p.2 = q.2 := String.ext h2
    exact Prod.ext hp1 hp2
  · rw [if_neg h] at hpq
    rw [if_neg (fun h2 => h h2.symm)] at hqp
    exact absurd (charsLe_antisymm _ _ hpq hqp) h

theorem sortAttrs_perm (l : List (String × String)) : (sortAttrs l).Perm l :=
  List.perm_insertionSort attrLe l

theorem sortAttrs_eq_iff (l₁ l₂ : List (String × String)) :
    sortAttrs l₁ = sortAttrs l₂ ↔ l₁.Perm l₂ := by
  constructor
  · intro h
    exact ((sortAttrs_perm l₁).symm.trans (h ▸ sortAttrs_perm l₂))
  · intro h
    exact List.eq_of_perm_of_sorted
      ((sortAttrs_perm l₁).trans (h.trans (sortAttrs_perm l₂).symm))
      (List.sorted_insertionSort attrLe l₁)
      (List.sorted_insertionSort attrLe l₂)

theorem encNat_inj : ∀ (n₁ n₂ : Nat) (r₁ r₂ : List Char),
    encNat n₁ ++ r₁ = encNat n₂ ++ r₂ → n₁ = n₂ ∧ r₁ = r₂ := by
  intro n₁
  induction n₁ with
  | zero =>
    intro n₂ r₁ r₂ h
    cases n₂ with
    | zero =>
      simp [encNat] at h
      exact ⟨rfl, h⟩
    | succ m =>
      have hc : ('0' : Char) = '1' := by
        have h2 := congrArg List.head? h
        simpa [encNat, List.replicate_succ] using h2
      exact absurd hc (by decide)
  | succ n ih =>
    intro n₂ r₁ r₂ h
    cases n₂ with
    | zero =>
      have hc : ('1' : Char) = '0' := by
        have h2 := congrArg List.head? h
        simpa [encNat, List.replicate_succ] using h2
      exact absurd hc (by decide)
    | succ m =>
      simp only [encNat, List.replicate_succ, List.cons_append, List.append_assoc,
        List.cons.injEq] at h
      obtain ⟨-, h2⟩ := h
      have h3 := ih m r₁ r₂ (by simpa [encNat, List.append_assoc] using h2)
      exact ⟨by omega, h3.2⟩

theorem encStr_inj : ∀ (s₁ s₂ : String) (r₁ r₂ : List Char),
    encStr s₁ ++ r₁ = encStr s₂ ++ r₂ → s₁ = s₂ ∧ r₁ = r₂ := by
  intro s₁ s₂ r₁ r₂ h
  simp only [encStr, List.append_assoc] at h
  obtain ⟨hlen, hrest⟩ := encNat_inj _ _ _ _ h
  obtain ⟨hdata, hr⟩ := List.append_inj hrest hlen
  exact ⟨String.ext hdata, hr⟩

theorem encAttrs_inj : ∀ (a₁ a₂ : List (String × String)) (r₁ r₂ : List Char),
    encAttrs a₁ ++ r₁ = encAttrs a₂ ++ r₂ → a₁ = a₂ ∧ r₁ = r₂ := by
  intro a₁
  induction a₁ with
  | nil =>
    intro a₂ r₁ r₂ h
    cases a₂ with
    | nil =>
      simp [encAttrs] at h
      exact ⟨rfl, h⟩
    | cons q rest2 =>
      have hc : ('0' : Char) = '1' := by
        have h2 := congrArg List.head? h
        simpa [encAttrs] using h2
      exact absurd hc (by decide)
  | cons p rest ih =>
    intro a₂ r₁ r₂ h
    cases a₂ with
    | nil =>
      have hc : ('1' : Char) = '0' := by
        have h2 := congrArg List.head? h
        simpa [encAttrs] using h2
      exact absurd hc (by decide)
    | cons q rest2 =>
      simp only [encAttrs, List.cons_append, List.append_assoc, List.cons.injEq] at h
      obtain ⟨-, h2⟩ := h
      obtain ⟨hn, h3⟩ := encStr_inj _ _ _ _ h2
      obtain ⟨hv, h4⟩ := encStr_inj _ _ _ _ h3
      obtain ⟨ha, hr⟩ := ih rest2 r₁ r₂ h4
      refine ⟨?_, hr⟩
      rw [ha]
      congr 1
      exact Prod.ext hn hv

mutual

theorem serE_prefix_inj : ∀ (e₁ e₂ : Element) (r₁ r₂ : List Char),
    serE e₁ ++ r₁ = serE e₂ ++ r₂ → e₁ = e₂ ∧ r₁ = r₂
  | .mk t₁ a₁ x₁ c₁, .mk t₂ a₂ x₂ c₂, r₁, r₂, h => by
    simp only [serE, List.append_assoc] at h
    obtain ⟨ht, h2⟩ := encStr_inj _ _ _ _ h
    obtain ⟨ha, h3⟩ := encAttrs_inj _ _ _ _ h2
    obtain ⟨hx, h4⟩ := encStr_inj _ _ _ _ h3
    obtain ⟨hc, hr⟩ := serL_prefix_inj c₁ c₂ r₁ r₂ h4
    exact ⟨by rw [ht, ha, hx, hc], hr⟩

theorem serL_prefix_inj : ∀ (l₁ l₂ : ElementList) (r₁ r₂ : List Char),
    serL l₁ ++ r₁ = serL l₂ ++ r₂ → l₁ = l₂ ∧ r₁ = r₂
  | .nil, .nil, r₁, r₂, h => by
    simp [serL] at h
    exact ⟨rfl, h⟩
  | .nil, .cons f fs, r₁, r₂, h => by
    have hc : ('0' : Char) = '1' := by
      have h2 := congrArg List.head? h
      simpa [serL] using h2
    exact absurd hc (by decide)
  | .cons e es, .nil, r₁, r₂, h => by
    have hc : ('1' : Char) = '0' := by
      have h2 := congrArg List.head? h
      simpa [serL] using h2
    exact absurd hc (by decide)
  | .cons e es, .cons f fs, r₁, r₂, h => by
    simp only [serL, List.cons_append, List.append_assoc, List.cons.injEq] at h
    obtain ⟨-, h2⟩ := h
    obtain ⟨he, h3⟩ := serE_prefix_inj e f _ _ h2
    obtain ⟨hes, hr⟩ := serL_prefix_inj es fs r₁ r₂ h3
    exact ⟨by rw [he, hes], hr⟩

end

theorem serE_inj {e₁ e₂ : Element} (h : serE e₁ = serE e₂) : e₁ = e₂ :=
  (serE_prefix_inj e₁ e₂ [] [] (by simpa using h)).1

mutual

theorem canonEl_eq_iff : ∀ e₁ e₂ : Element, canonEl e₁ = canonEl e₂ ↔ StructEq e₁ e₂
  | .mk t₁ a₁ x₁ c₁, .mk t₂ a₂ x₂ c₂ => by
    simp only [canonEl, StructEq, Element.mk.injEq]
    rw [sortAttrs_eq_iff, canonList_eq_iff c₁ c₂]

theorem canonList_eq_iff : ∀ l₁ l₂ : ElementList, canonList l₁ = canonList l₂ ↔ StructEqList l₁ l₂
  | .nil, .nil => by simp [canonList, StructEqList]
  | .nil, .cons f fs => by simp [canonList, StructEqList]
  | .cons e es, .nil => by simp [canonList, StructEqList]
  | .cons e es, .cons f fs => by
    simp only [canonList, StructEqList, ElementList.cons.injEq]
    rw [canonEl_eq_iff e f, canonList_eq_iff es fs]

end

/-- C6: two metadata elements have the same digest exactly when they are
structurally equal up to attribute ordering — reordering attributes never
changes the digest, while any change to an attribute's name or value, to
text, or to structure changes it (hash collisions being out of scope, the
spec-modelled digest is injective on canonical forms). -/
theorem generate_digest_eq_iff (A B : Element) :
    generate_digest A = generate_digest B ↔ StructEq A B := by
  rw [← canonEl_eq_iff]
  constructor
  · intro h
    apply serE_inj
    have h2 : (String.mk (serE (canonEl A))).data = (String.mk (serE (canonEl B))).data :=
      congrArg String.data h
    simpa using h2
  · intro h
    simp [generate_digest, h]

theorem write_references_merges_across_instances_witness :
    ∃ E : Entry,
      (read_md_references
          (write_references [add_reference "_b" "p" none none]
            (write_references [add_reference "_a" "p" none none] none).1).1).bind
        (fun rd => assocGet rd "p") = some E ∧ "_a" ∈ E.md_ids ∧ "_b" ∈ E.md_ids :=
  write_references_merges_across_instances none "p" "_a" "_b" (by decide)

theorem write_references_merge_rewrite_witness :
    (write_references [add_reference "_b" "p" none none]
      (some [("p", ⟨"file", ["_a"], []⟩), ("q", ⟨"file", ["_q"], []⟩)])).2 = true := by
  obtain ⟨fresh, -, ht, -⟩ := write_references_merge_rewrite
    [add_reference "_b" "p" none none]
    (some [("p", ⟨"file", ["_a"], []⟩), ("q", ⟨"file", ["_q"], []⟩)])
  rw [ht (by decide)]

theorem write_md_idempotent_witness :
    write_md "ws"
        ([] ++ [md_filename "ws"
          (generate_digest (Element.mk "sampleData" [] "" ElementList.nil))
          (md_suffix "NISOIMG" none)])
        (Element.mk "sampleData" [] "" ElementList.nil) "NISOIMG" "2.0" none none =
      (("_" ++ generate_digest (Element.mk "sampleData" [] "" ElementList.nil),
        md_filename "ws" (generate_digest (Element.mk "sampleData" [] "" ElementList.nil))
          (md_suffix "NISOIMG" none)),
       [] ++ [md_filename "ws"
         (generate_digest (Element.mk "sampleData" [] "" ElementList.nil))
         (md_suffix "NISOIMG" none)], false) :=
  (write_md_idempotent "ws" [] (Element.mk "sampleData" [] "" ElementList.nil)
    "NISOIMG" "2.0" none none (by simp)).2

theorem md_ids_accumulate_and_nodup_witness :
    ∃ E, read_md_references (multiFlush "p" [["_a"], ["_b", "_a"]]) = some [("p", E)] ∧
      E.md_ids.Nodup ∧
      E.md_ids.toFinset = ([["_a"], ["_b", "_a"]] : List (List String)).flatten.toFinset ∧
      E.path_type = "file" ∧ E.streams = [] :=
  md_ids_accumulate_and_nodup.1 "p" [["_a"], ["_b", "_a"]] (by decide)

theorem get_md_references_stream_lookup_witness :
    get_md_references (some [("a.tif", ⟨"file", [], [(1, ["_x"]), (2, ["_y"])]⟩)])
        (some "a.tif") (some 2) none = some (["_y"] : List String).toFinset :=
  (get_md_references_stream_lookup [("a.tif", ⟨"file", [], [(1, ["_x"]), (2, ["_y"])]⟩)]
    "a.tif" ⟨"file", [], [(1, ["_x"]), (2, ["_y"])]⟩ 2 (by decide) (by decide)).1
    ["_y"] (by decide)

theorem get_md_references_miss_empty_witness :
    get_md_references (some [("b", ⟨"file", ["_m"], []⟩)]) none none (some "c")
      = some (∅ : Finset String) :=
  (get_md_references_miss_empty [("b", ⟨"file", ["_m"], []⟩)]).1 "c" none none
    (by decide) (by decide)
